import Mathlib

/-!
Verification of the event-aggregation core of the Elsevier review tracker.

The embedding follows `src/src/main.ts` (the `formatReviewData` fold and the
`getStatus` precedence chain) together with the record types declared in the
repository's `types/review.ts` file.  JavaScript objects keyed by numbers are
modelled as insertion-ordered association lists over `Int`; property
enumeration (`Object.entries` / `Object.values`) follows the ECMAScript
OrdinaryOwnPropertyKeys order: array-index keys (`0 ≤ k < 2^32 - 1`) in
ascending numeric order first, all remaining keys in insertion order.
`Array.prototype.sort`, which ECMAScript requires to be a stable sort, is
modelled by the stable `List.insertionSort`.
-/

namespace ReviewTracker

open scoped List

/-- Event kinds, from `ReviewEventType` in `types/review.ts`
(`REVIEWER_INVITED`, `REVIEWER_ACCEPTED`, `REVIEWER_COMPLETED`). -/
inductive ReviewEventType where
  | Invited
  | Accepted
  | Completed
deriving DecidableEq

/-- One raw review event, from `ReviewEvent` in `types/review.ts`. -/
structure ReviewEvent where
  Date : Int
  Event : ReviewEventType
  Revision : Int
  Id : Int
deriving DecidableEq

/-- The raw fetched document, from `ReviewData` in `types/review.ts`. -/
structure ReviewData where
  Uuid : String
  CorrespondingAuthor : String
  DocumentId : Int
  FirstAuthor : String
  JournalAcronym : String
  JournalName : String
  LastUpdated : Int
  LatestRevisionNumber : Int
  ManuscriptTitle : String
  PubdNumber : String
  ReviewEvents : List ReviewEvent
  Status : Int
  SubmissionDate : Int
deriving DecidableEq

/-- Folded per-reviewer state, from `ReviewerData` in `types/review.ts`. -/
structure ReviewerData where
  Id : Int
  InvitedDate : Int
  AcceptedDate : Int
  CompletedDate : Int
  LastUpdated : Int
  Collapsed : Bool
deriving DecidableEq

/-- `ReviewerMap` from `types/review.ts`: a JS object keyed by reviewer id,
modelled as an insertion-ordered association list. -/
abbrev ReviewerMap := List (Int × ReviewerData)

/-- `RevisionMap` from `types/review.ts`: a JS object keyed by revision
number, modelled as an insertion-ordered association list. -/
abbrev RevisionMap := List (Int × ReviewerMap)

/-- One output revision group, from `RevisionData` in `types/review.ts`. -/
structure RevisionData where
  Id : Int
  Collapsed : Bool
  Reviewers : List ReviewerData
deriving DecidableEq

/-- The aggregated output, from `FormattedReviewData` in `types/review.ts`. -/
structure FormattedReviewData where
  CorrespondingAuthor : String
  JournalAcronym : String
  JournalName : String
  LastUpdated : Int
  ManuscriptTitle : String
  SubmissionDate : Int
  Revisions : List RevisionData
deriving DecidableEq

/-! ### JavaScript object model -/

/-- Property read `m[k]` on a JS object modelled as an association list. -/
def jsGet : List (Int × α) → Int → Option α
  | [], _ => none
  | p :: rest, k => if p.1 = k then some p.2 else jsGet rest k

/-- Property write `m[k] = v`: overwrites in place if the key exists,
otherwise appends the new key in insertion order. -/
def jsSet : List (Int × α) → Int → α → List (Int × α)
  | [], k, v => [(k, v)]
  | p :: rest, k, v => if p.1 = k then (k, v) :: rest else p :: jsSet rest k v

/-- ECMAScript array-index keys: canonical numeric strings with
`0 ≤ k < 2^32 - 1`. -/
def isArrayIndex (k : Int) : Bool := 0 ≤ k && k < 4294967295

/-- Enumeration order of own property keys of an ordinary JS object:
array indices ascending first, then other keys in insertion order.
`jsKeyLE a b` holds when key `a` may be enumerated no later than `b`. -/
def jsKeyLE (a b : Int) : Bool :=
  if isArrayIndex a then !isArrayIndex b || a ≤ b else !isArrayIndex b

/-- `Object.entries` (also the entry order of `Object.values`): the
association list re-ordered into JS property enumeration order.  Since
`insertionSort` is stable, non-index keys stay in insertion order. -/
def jsEntries (m : List (Int × α)) : List (Int × α) :=
  m.insertionSort (fun p q => jsKeyLE p.1 q.1 = true)

/-! ### The event fold (`formatReviewData`, `src/src/main.ts` lines 60-113) -/

/-- The freshly created reviewer record (`src/src/main.ts` lines 72-79). -/
def initReviewer (reviewerId : Int) : ReviewerData :=
  { Id := reviewerId
    InvitedDate := 0
    AcceptedDate := 0
    CompletedDate := 0
    LastUpdated := 0
    Collapsed := true }

/-- The per-event mutation of a reviewer record
(`src/src/main.ts` lines 84-88). -/
def applyEvent (reviewer : ReviewerData) (event : ReviewEvent) : ReviewerData :=
  let r1 := if event.Event = .Invited then { reviewer with InvitedDate := event.Date } else reviewer
  let r2 := if event.Event = .Accepted then { r1 with AcceptedDate := event.Date } else r1
  let r3 := if event.Event = .Completed then { r2 with CompletedDate := event.Date } else r2
  if event.Date > r3.LastUpdated then { r3 with LastUpdated := event.Date } else r3

/-- One iteration of the `forEach` fold (`src/src/main.ts` lines 65-89):
locate or create the bucket for the event's revision and the record for its
reviewer, then apply the event. -/
def processEvent (groupedEvents : RevisionMap) (event : ReviewEvent) : RevisionMap :=
  let rm := (jsGet groupedEvents event.Revision).getD []
  let reviewer := (jsGet rm event.Id).getD (initReviewer event.Id)
  jsSet groupedEvents event.Revision (jsSet rm event.Id (applyEvent reviewer event))

/-- The whole fold pass over `reviewData.ReviewEvents`. -/
def groupEvents (events : List ReviewEvent) : RevisionMap :=
  events.foldl processEvent []

/-- The revision-level sort
`.sort(([revA], [revB]) => Number(revA) - Number(revB))`
(`src/src/main.ts` line 92), a stable sort by ascending revision key. -/
def sortRevisionEntries (l : List (Int × ReviewerMap)) : List (Int × ReviewerMap) :=
  l.insertionSort (fun p q => p.1 ≤ q.1)

/-- The reviewer-level sort `.sort((a, b) => a.LastUpdated - b.LastUpdated)`
(`src/src/main.ts` line 97), a stable sort by ascending `LastUpdated`. -/
def sortReviewers (l : List ReviewerData) : List ReviewerData :=
  l.insertionSort (fun a b => a.LastUpdated ≤ b.LastUpdated)

/-- The grouping/sorting pass (`src/src/main.ts` lines 91-100). -/
def formatRevisions (groupedEvents : RevisionMap) : List RevisionData :=
  (sortRevisionEntries (jsEntries groupedEvents)).map (fun p =>
    { Id := p.1
      Reviewers := sortReviewers ((jsEntries p.2).map (·.2))
      Collapsed := true })

/-- `formatReviewData` (`src/src/main.ts` lines 60-113).  The
`if (!reviewData) return null` guard is modelled by `Option`. -/
def formatReviewData (reviewData : Option ReviewData) : Option FormattedReviewData :=
  match reviewData with
  | none => none
  | some d => some
    { CorrespondingAuthor := d.CorrespondingAuthor
      JournalAcronym := d.JournalAcronym
      JournalName := d.JournalName
      LastUpdated := d.LastUpdated
      ManuscriptTitle := d.ManuscriptTitle
      SubmissionDate := d.SubmissionDate
      Revisions := formatRevisions (groupEvents d.ReviewEvents) }

/-- `getStatus` (`src/src/main.ts` lines 142-147); a JS number is truthy
exactly when it is nonzero. -/
def getStatus (reviewer : ReviewerData) : String :=
  if reviewer.CompletedDate ≠ 0 then "Completed"
  else if reviewer.AcceptedDate ≠ 0 then "Accepted"
  else if reviewer.InvitedDate ≠ 0 then "Invited"
  else "Unknown"

/-- Joint lookup of the state of key `(rev, id)` in the nested map. -/
def lookupState (m : RevisionMap) (rev id : Int) : Option ReviewerData :=
  (jsGet m rev).bind (fun rm => jsGet rm id)

/-- The field of a reviewer record written by events of kind `k`. -/
def fieldOf (k : ReviewEventType) (r : ReviewerData) : Int :=
  match k with
  | .Invited => r.InvitedDate
  | .Accepted => r.AcceptedDate
  | .Completed => r.CompletedDate

/-! ### Association-list toolkit -/

theorem jsGet_jsSet_self (m : List (Int × α)) (k : Int) (v : α) :
    jsGet (jsSet m k v) k = some v := by
  induction m with
  | nil => simp [jsGet, jsSet]
  | cons p rest ih =>
    by_cases h : p.1 = k
    · simp [jsGet, jsSet, h]
    · simp [jsGet, jsSet, h, ih]

theorem jsGet_jsSet_ne (m : List (Int × α)) {k k' : Int} (v : α) (h : k' ≠ k) :
    jsGet (jsSet m k v) k' = jsGet m k' := by
  have h' : ¬ k = k' := fun he => h he.symm
  induction m with
  | nil => simp [jsGet, jsSet, h']
  | cons p rest ih =>
    by_cases hp : p.1 = k
    · have hpk' : ¬ p.1 = k' := by rw [hp]; exact h'
      simp [jsGet, jsSet, hp, hpk', h']
    · simp [jsGet, jsSet, hp, ih]

theorem mem_jsSet {m : List (Int × α)} {k : Int} {v : α} {p : Int × α}
    (h : p ∈ jsSet m k v) : p = (k, v) ∨ p ∈ m := by
  induction m with
  | nil => simpa [jsSet] using h
  | cons q rest ih =>
    by_cases hq : q.1 = k
    · simp only [jsSet, hq, if_pos rfl] at h
      rcases List.mem_cons.mp h with h | h
      · exact Or.inl h
      · exact Or.inr (List.mem_cons_of_mem _ h)
    · simp only [jsSet, hq, if_neg hq] at h
      rcases List.mem_cons.mp h with h | h
      · exact Or.inr (List.mem_cons.mpr (Or.inl h))
      · rcases ih h with h | h
        · exact Or.inl h
        · exact Or.inr (List.mem_cons_of_mem _ h)

theorem jsSet_map_fst (m : List (Int × α)) (k : Int) (v : α) :
    (jsSet m k v).map Prod.fst =
      if k ∈ m.map Prod.fst then m.map Prod.fst else m.map Prod.fst ++ [k] := by
  induction m with
  | nil => simp [jsSet]
  | cons p rest ih =>
    by_cases hp : p.1 = k
    · simp [jsSet, hp]
    · have hne : ¬ k = p.1 := fun he => hp he.symm
      by_cases hk : k ∈ rest.map Prod.fst <;>
        simp [jsSet, hp, ih, hk, hne]

theorem jsGet_isSome_iff (m : List (Int × α)) (k : Int) :
    (jsGet m k).isSome ↔ k ∈ m.map Prod.fst := by
  induction m with
  | nil => simp [jsGet]
  | cons p rest ih =>
    by_cases hp : p.1 = k
    · simp [jsGet, hp]
    · have hne : ¬ k = p.1 := fun he => hp he.symm
      simp [jsGet, hp, ih, hne]

theorem jsGet_mem {m : List (Int × α)} {k : Int} {v : α}
    (h : jsGet m k = some v) : (k, v) ∈ m := by
  induction m with
  | nil => simp [jsGet] at h
  | cons p rest ih =>
    by_cases hp : p.1 = k
    · simp only [jsGet, if_pos hp] at h
      obtain rfl : p.2 = v := by injection h
      exact List.mem_cons.mpr (Or.inl (by rw [← hp]))
    · simp only [jsGet, if_neg hp] at h
      exact List.mem_cons_of_mem _ (ih h)

theorem jsGet_eq_some_of_mem {m : List (Int × α)} {p : Int × α}
    (hnd : (m.map Prod.fst).Nodup) (h : p ∈ m) : jsGet m p.1 = some p.2 := by
  induction m with
  | nil => simp at h
  | cons q rest ih =>
    rcases List.mem_cons.mp h with h | h
    · subst h
      simp [jsGet]
    · have hq : q.1 ≠ p.1 := by
        intro he
        have : q.1 ∉ rest.map Prod.fst := (List.nodup_cons.mp (by simpa using hnd)).1
        exact this (he ▸ List.mem_map_of_mem Prod.fst h)
      simp only [jsGet, if_neg hq]
      exact ih (List.nodup_cons.mp (by simpa using hnd)).2 h

theorem jsSet_length (m : List (Int × α)) (k : Int) (v : α) :
    (jsSet m k v).length = if (jsGet m k).isSome then m.length else m.length + 1 := by
  induction m with
  | nil => simp [jsGet, jsSet]
  | cons p rest ih =>
    by_cases hp : p.1 = k
    · simp [jsGet, jsSet, hp]
    · by_cases hs : (jsGet rest k).isSome <;> simp [jsGet, jsSet, hp, ih, hs]

theorem jsSet_ne_nil (m : List (Int × α)) (k : Int) (v : α) : jsSet m k v ≠ [] := by
  cases m with
  | nil => simp [jsSet]
  | cons p rest =>
    by_cases hp : p.1 = k <;> simp [jsSet, hp]

/-! ### Properties of the fold step -/

theorem applyEvent_Id (r : ReviewerData) (e : ReviewEvent) : (applyEvent r e).Id = r.Id := by
  cases he : e.Event <;> simp [applyEvent, he] <;> split <;> rfl

theorem fieldOf_applyEvent_self (r : ReviewerData) (e : ReviewEvent) :
    fieldOf e.Event (applyEvent r e) = e.Date := by
  cases he : e.Event <;> simp [applyEvent, he, fieldOf] <;> split <;> rfl

theorem applyEvent_LastUpdated (r : ReviewerData) (e : ReviewEvent) :
    (applyEvent r e).LastUpdated =
      if e.Date > r.LastUpdated then e.Date else r.LastUpdated := by
  cases he : e.Event <;> simp [applyEvent, he] <;> split <;> rfl

theorem lookupState_processEvent (m : RevisionMap) (e : ReviewEvent) (rev id : Int) :
    lookupState (processEvent m e) rev id =
      if e.Revision = rev ∧ e.Id = id
      then some (applyEvent ((lookupState m rev id).getD (initReviewer id)) e)
      else lookupState m rev id := by
  unfold processEvent lookupState
  by_cases hr : e.Revision = rev
  · subst hr
    rw [jsGet_jsSet_self]
    by_cases hi : e.Id = id
    · subst hi
      rw [if_pos ⟨rfl, rfl⟩]
      simp only [Option.some_bind]
      rw [jsGet_jsSet_self]
      cases hm : jsGet m e.Revision <;> simp [hm, jsGet]
    · rw [if_neg (by simp [hi])]
      simp only [Option.some_bind]
      rw [jsGet_jsSet_ne _ _ (fun hh => hi hh.symm)]
      cases hm : jsGet m e.Revision <;> simp [hm, jsGet]
  · rw [if_neg (by simp [hr]), jsGet_jsSet_ne _ _ (fun hh => hr hh.symm)]

theorem groupEvents_append (evs : List ReviewEvent) (e : ReviewEvent) :
    groupEvents (evs ++ [e]) = processEvent (groupEvents evs) e := by
  simp [groupEvents, List.foldl_append]

/-- The sub-sequence of events affecting the key `(rev, id)`. -/
def keyFilter (evs : List ReviewEvent) (rev id : Int) : List ReviewEvent :=
  evs.filter (fun e => e.Revision == rev && e.Id == id)

/-- Central characterisation of the fold: the state stored for a key is the
left fold of `applyEvent` over exactly the events of that key, in input
order, starting from the freshly initialised record. -/
theorem lookupState_groupEvents (evs : List ReviewEvent) (rev id : Int) :
    lookupState (groupEvents evs) rev id =
      if keyFilter evs rev id = []
      then none
      else some ((keyFilter evs rev id).foldl applyEvent (initReviewer id)) := by
  induction evs using List.reverseRecOn with
  | nil => simp [groupEvents, lookupState, jsGet, keyFilter]
  | append_singleton evs e ih =>
    rw [groupEvents_append, lookupState_processEvent]
    by_cases hm : e.Revision = rev ∧ e.Id = id
    · have hf : keyFilter (evs ++ [e]) rev id = keyFilter evs rev id ++ [e] := by
        simp [keyFilter, List.filter_append, hm.1, hm.2]
      rw [if_pos hm, hf, ih]
      by_cases he : keyFilter evs rev id = []
      · simp [he]
      · simp [he, List.foldl_append]
    · have hf : keyFilter (evs ++ [e]) rev id = keyFilter evs rev id := by
        have : ¬ (e.Revision == rev && e.Id == id) = true := by
          simpa using fun h1 h2 => hm ⟨h1, h2⟩
        simp [keyFilter, List.filter_append, this]
      rw [if_neg hm, hf, ih]

theorem keys_groupEvents (evs : List ReviewEvent) (r : Int) :
    r ∈ (groupEvents evs).map Prod.fst ↔ ∃ e ∈ evs, e.Revision = r := by
  induction evs using List.reverseRecOn with
  | nil => simp [groupEvents]
  | append_singleton evs e ih =>
    rw [groupEvents_append]
    unfold processEvent
    rw [jsSet_map_fst]
    by_cases hk : e.Revision ∈ (groupEvents evs).map Prod.fst
    · rw [if_pos hk, ih]
      constructor
      · rintro ⟨e', he', rfl⟩
        exact ⟨e', List.mem_append_left _ he', rfl⟩
      · rintro ⟨e', he', rfl⟩
        rcases List.mem_append.mp he' with h | h
        · exact ⟨e', h, rfl⟩
        · obtain rfl : e' = e := by simpa using h
          exact ih.mp hk
    · rw [if_neg hk]
      simp only [List.mem_append, List.mem_singleton, ih]
      constructor
      · rintro (⟨e', he', rfl⟩ | rfl)
        · exact ⟨e', Or.inl he', rfl⟩
        · exact ⟨e, Or.inr rfl, rfl⟩
      · rintro ⟨e', h | rfl, rfl⟩
        · exact Or.inl ⟨e', h, rfl⟩
        · exact Or.inr rfl

/-! ### Structural invariants of the nested map -/

/-- Well-formedness of one reviewer bucket: keys are distinct and each
stored record carries its own key in its `Id` field. -/
def InnerWF (rm : ReviewerMap) : Prop :=
  (rm.map Prod.fst).Nodup ∧ ∀ p ∈ rm, p.2.Id = p.1

/-- Well-formedness of the nested map: distinct revision keys, well-formed
nonempty buckets. -/
def MapWF (m : RevisionMap) : Prop :=
  (m.map Prod.fst).Nodup ∧ ∀ q ∈ m, InnerWF q.2 ∧ q.2 ≠ []

theorem jsSet_nodup_fst {m : List (Int × α)} (h : (m.map Prod.fst).Nodup)
    (k : Int) (v : α) : ((jsSet m k v).map Prod.fst).Nodup := by
  rw [jsSet_map_fst]
  split
  · exact h
  · rename_i hk
    simp [List.nodup_append, h, hk]

theorem groupEvents_WF (evs : List ReviewEvent) : MapWF (groupEvents evs) := by
  induction evs using List.reverseRecOn with
  | nil => exact ⟨by simp [groupEvents], by simp [groupEvents]⟩
  | append_singleton evs e ih =>
    obtain ⟨hnd, hq⟩ := ih
    rw [groupEvents_append]
    unfold processEvent
    refine ⟨jsSet_nodup_fst hnd _ _, ?_⟩
    intro q hmem
    rcases mem_jsSet hmem with rfl | hold
    · have hrm : InnerWF ((jsGet (groupEvents evs) e.Revision).getD []) := by
        cases hg : jsGet (groupEvents evs) e.Revision with
        | none => exact ⟨by simp, by simp⟩
        | some rm0 => exact (hq _ (jsGet_mem hg)).1
      refine ⟨⟨jsSet_nodup_fst hrm.1 _ _, ?_⟩, jsSet_ne_nil _ _ _⟩
      intro p hp
      rcases mem_jsSet hp with rfl | hold'
      · rw [applyEvent_Id]
        cases hg : jsGet ((jsGet (groupEvents evs) e.Revision).getD []) e.Id with
        | none => simp [hg, initReviewer]
        | some rv =>
          simp only [hg, Option.getD_some]
          exact hrm.2 _ (jsGet_mem hg)
      · exact hrm.2 _ hold'
    · exact hq _ hold

theorem inner_mem_groupEvents (evs : List ReviewEvent) :
    ∀ q ∈ groupEvents evs, ∀ p ∈ q.2, ∃ e ∈ evs, e.Revision = q.1 ∧ e.Id = p.1 := by
  induction evs using List.reverseRecOn with
  | nil => simp [groupEvents]
  | append_singleton evs e ih =>
    rw [groupEvents_append]
    unfold processEvent
    intro q hmem p hp
    rcases mem_jsSet hmem with rfl | hold
    · rcases mem_jsSet hp with rfl | hold'
      · exact ⟨e, List.mem_append_right _ (List.mem_singleton.mpr rfl), rfl, rfl⟩
      · cases hg : jsGet (groupEvents evs) e.Revision with
        | none => simp [hg] at hold'
        | some rm0 =>
          rw [hg] at hold'
          obtain ⟨e', he', h1, h2⟩ := ih _ (jsGet_mem hg) _ hold'
          exact ⟨e', List.mem_append_left _ he', h1, h2⟩
    · obtain ⟨e', he', h1, h2⟩ := ih _ hold _ hp
      exact ⟨e', List.mem_append_left _ he', h1, h2⟩

/-! ### Ordering toolkit -/

theorem isArrayIndex_iff (k : Int) : isArrayIndex k = true ↔ 0 ≤ k ∧ k < 4294967295 := by
  simp [isArrayIndex]

theorem jsKeyLE_total (a b : Int) : jsKeyLE a b = true ∨ jsKeyLE b a = true := by
  by_cases ha : isArrayIndex a = true <;> by_cases hb : isArrayIndex b = true <;>
    simp [jsKeyLE, ha, hb, Bool.not_eq_true] <;> try omega

theorem jsKeyLE_trans (a b c : Int) (h1 : jsKeyLE a b = true) (h2 : jsKeyLE b c = true) :
    jsKeyLE a c = true := by
  by_cases ha : isArrayIndex a = true <;> by_cases hb : isArrayIndex b = true <;>
    by_cases hc : isArrayIndex c = true <;>
      simp [jsKeyLE, ha, hb, hc, Bool.not_eq_true] at * <;> try omega

theorem jsKeyLE_of_indices {a b : Int} (ha : isArrayIndex a = true)
    (hb : isArrayIndex b = true) : jsKeyLE a b = true ↔ a ≤ b := by
  simp [jsKeyLE, ha, hb]

theorem jsEntries_perm (m : List (Int × α)) : jsEntries m ~ m :=
  List.perm_insertionSort _ m

theorem jsEntries_pairwise (m : List (Int × α)) :
    (jsEntries m).Pairwise (fun p q => jsKeyLE p.1 q.1 = true) := by
  haveI : IsTotal (Int × α) (fun p q => jsKeyLE p.1 q.1 = true) :=
    ⟨fun p q => jsKeyLE_total p.1 q.1⟩
  haveI : IsTrans (Int × α) (fun p q => jsKeyLE p.1 q.1 = true) :=
    ⟨fun p q s h1 h2 => jsKeyLE_trans _ _ _ h1 h2⟩
  exact List.sorted_insertionSort _ m

theorem sortRevisionEntries_perm (l : List (Int × ReviewerMap)) :
    sortRevisionEntries l ~ l :=
  List.perm_insertionSort _ l

theorem sortRevisionEntries_pairwise (l : List (Int × ReviewerMap)) :
    (sortRevisionEntries l).Pairwise (fun p q => p.1 ≤ q.1) := by
  haveI : IsTotal (Int × ReviewerMap) (fun p q => p.1 ≤ q.1) :=
    ⟨fun p q => le_total p.1 q.1⟩
  haveI : IsTrans (Int × ReviewerMap) (fun p q => p.1 ≤ q.1) :=
    ⟨fun p q s h1 h2 => le_trans h1 h2⟩
  exact List.sorted_insertionSort _ l

theorem sortReviewers_perm (l : List ReviewerData) : sortReviewers l ~ l :=
  List.perm_insertionSort _ l

theorem sortReviewers_pairwise (l : List ReviewerData) :
    (sortReviewers l).Pairwise (fun a b => a.LastUpdated ≤ b.LastUpdated) := by
  haveI : IsTotal ReviewerData (fun a b => a.LastUpdated ≤ b.LastUpdated) :=
    ⟨fun a b => le_total a.LastUpdated b.LastUpdated⟩
  haveI : IsTrans ReviewerData (fun a b => a.LastUpdated ≤ b.LastUpdated) :=
    ⟨fun a b c h1 h2 => le_trans h1 h2⟩
  exact List.sorted_insertionSort _ l

theorem pair_sublist_of_mem {l : List α} {a b : α} (ha : a ∈ l) (hb : b ∈ l)
    (hne : a ≠ b) : [a, b] <+ l ∨ [b, a] <+ l := by
  induction l with
  | nil => simp at ha
  | cons c t ih =>
    rcases List.mem_cons.mp ha with rfl | ha'
    · have hb' : b ∈ t := by
        rcases List.mem_cons.mp hb with rfl | h
        · exact absurd rfl hne
        · exact h
      exact Or.inl (List.cons_sublist_cons.mpr (List.singleton_sublist.mpr hb'))
    · rcases List.mem_cons.mp hb with rfl | hb'
      · exact Or.inr (List.cons_sublist_cons.mpr (List.singleton_sublist.mpr ha'))
      · rcases ih ha' hb' with h | h
        · exact Or.inl (h.cons c)
        · exact Or.inr (h.cons c)

theorem pair_sublist_antisymm {l : List α} (hnd : l.Nodup) {a b : α}
    (h1 : [a, b] <+ l) (h2 : [b, a] <+ l) : a = b := by
  induction l with
  | nil => simp at h1
  | cons c t ih =>
    have hct := List.nodup_cons.mp hnd
    cases h1 with
    | cons _ h1' =>
      cases h2 with
      | cons _ h2' => exact ih hct.2 h1' h2'
      | cons₂ h2' =>
        exact absurd (h1'.subset (by simp)) hct.1
    | cons₂ h1' =>
      cases h2 with
      | cons _ h2' =>
        exact absurd (h2'.subset (by simp)) hct.1
      | cons₂ h2' => rfl

theorem pairwise_lt_of_le_of_nodup_fst {l : List (Int × β)}
    (h1 : l.Pairwise (fun p q => p.1 ≤ q.1)) (h2 : (l.map Prod.fst).Nodup) :
    l.Pairwise (fun p q => p.1 < q.1) := by
  induction l with
  | nil => exact List.Pairwise.nil
  | cons p t ih =>
    obtain ⟨hle, h1'⟩ := List.pairwise_cons.mp h1
    rw [List.map_cons] at h2
    obtain ⟨hnm, h2'⟩ := List.nodup_cons.mp h2
    refine List.pairwise_cons.mpr ⟨?_, ih h1' h2'⟩
    intro q hq
    exact lt_of_le_of_ne (hle q hq) (fun he => hnm (he ▸ List.mem_map_of_mem Prod.fst hq))

/-! ### Claim C1 -/

/-- C1: for two events of the same kind and the same `(revisionNumber,
reviewerId)` key folded in input order, the later event's timestamp
unconditionally overwrites the stored field, even when it is smaller;
concretely, folding `{t:10, Invited, rev:1, id:1}` then
`{t:5, Invited, rev:1, id:1}` yields `invitedAt = 5` while `lastUpdatedAt`
keeps the larger earlier timestamp `10`. -/
theorem later_event_overwrites_field_lastUpdated_keeps_max :
    (∀ (t1 t2 rev id : Int) (k : ReviewEventType),
      (lookupState (groupEvents [⟨t1, k, rev, id⟩, ⟨t2, k, rev, id⟩]) rev id).map
        (fieldOf k) = some t2) ∧
    lookupState (groupEvents [⟨10, .Invited, 1, 1⟩, ⟨5, .Invited, 1, 1⟩]) 1 1 =
      some { Id := 1, InvitedDate := 5, AcceptedDate := 0, CompletedDate := 0,
             LastUpdated := 10, Collapsed := true } := by
  constructor
  · intro t1 t2 rev id k
    rw [lookupState_groupEvents]
    have hf : keyFilter [⟨t1, k, rev, id⟩, ⟨t2, k, rev, id⟩] rev id =
        [⟨t1, k, rev, id⟩, ⟨t2, k, rev, id⟩] := by
      simp [keyFilter]
    rw [hf, if_neg (List.cons_ne_nil _ _)]
    simp only [List.foldl_cons, List.foldl_nil, Option.map_some]
    exact congrArg some
      (fieldOf_applyEvent_self
        (applyEvent (initReviewer id) ⟨t1, k, rev, id⟩) ⟨t2, k, rev, id⟩)
  · decide

/-! ### Claim C5 -/

/-- Modelled from the spec: the derived-status policy of spec §4, stated
over abstract "is set" flags, used as the refinement target for
`getStatus`. -/
def specStatus (completedSet acceptedSet invitedSet : Bool) : String :=
  if completedSet then "Completed"
  else if acceptedSet then "Accepted"
  else if invitedSet then "Invited"
  else "Unknown"

/-- C5: `getStatus` is a strict precedence chain — Completed if
`completedAt` is set (nonzero), else Accepted if `acceptedAt` is set, else
Invited if `invitedAt` is set, else Unknown — depending only on which
fields are set, never on timestamp comparisons. -/
theorem getStatus_eq_specStatus (r : ReviewerData) :
    getStatus r =
      specStatus (r.CompletedDate != 0) (r.AcceptedDate != 0) (r.InvitedDate != 0) := by
  unfold getStatus specStatus
  by_cases h1 : r.CompletedDate = 0 <;> by_cases h2 : r.AcceptedDate = 0 <;>
    by_cases h3 : r.InvitedDate = 0 <;> simp [h1, h2, h3]

/-! ### Claim C3 -/

/-- An input whose single event has a negative revision number: malformed
according to the spec's data model (`revisionNumber: integer ≥ 0`). -/
def negativeRevisionInput : ReviewData :=
  { Uuid := "u", CorrespondingAuthor := "Ada", DocumentId := 7, FirstAuthor := "Ada",
    JournalAcronym := "JX", JournalName := "Journal X", LastUpdated := 90,
    LatestRevisionNumber := 1, ManuscriptTitle := "T", PubdNumber := "P",
    ReviewEvents := [⟨5, .Invited, -1, 1⟩], Status := 0, SubmissionDate := 80 }

/-- C3 counterexample: on a malformed input (negative revision number) the
aggregation does not signal any error — it silently produces a complete
result containing a revision group for revision `-1`. -/
theorem no_invalidInput_on_negative_revision :
    formatReviewData (some negativeRevisionInput) =
      some { CorrespondingAuthor := "Ada", JournalAcronym := "JX",
             JournalName := "Journal X", LastUpdated := 90, ManuscriptTitle := "T",
             SubmissionDate := 80,
             Revisions := [⟨-1, true, [⟨1, 5, 0, 0, 5, true⟩]⟩] } := by
  decide

/-- C3 amended: the aggregation performs no validation and signals no
error: every non-null input, malformed events included, produces a
result; in particular empty event lists and partial lifecycles are not
errors. -/
theorem formatReviewData_total (d : ReviewData) :
    (formatReviewData (some d)).isSome = true := rfl

/-! ### Claim C4 -/

theorem foldl_applyEvent_LastUpdated (es : List ReviewEvent) (r : ReviewerData) :
    (es.foldl applyEvent r).LastUpdated = (es.map (·.Date)).foldl max r.LastUpdated := by
  induction es generalizing r with
  | nil => rfl
  | cons e t ih =>
    simp only [List.foldl_cons, List.map_cons]
    rw [ih]
    have : (applyEvent r e).LastUpdated = max r.LastUpdated e.Date := by
      rw [applyEvent_LastUpdated, max_def]
      split <;> split <;> omega
    rw [this]

/-- C4 counterexample: for a single event with the (integer) timestamp
`-5`, the stored `lastUpdatedAt` is `0` — the initial value — and not the
maximum folded timestamp `-5`. -/
theorem lastUpdated_not_max_on_negative_timestamp :
    (lookupState (groupEvents [⟨-5, .Invited, 1, 1⟩]) 1 1).map (·.LastUpdated) = some 0 ∧
    ((keyFilter [⟨-5, .Invited, 1, 1⟩] 1 1).map (·.Date)).maximum = some (-5) ∧
    (0 : Int) ≠ -5 := by
  decide

/-- C4 amended: `lastUpdatedAt` is monotonically non-decreasing as events
fold in, and after the fold it equals the maximum of `0` (its initial
value) and all timestamps folded into the state — hence the maximum folded
timestamp whenever the timestamps are nonnegative. -/
theorem lastUpdated_monotone_and_eq_foldl_max :
    (∀ (evs : List ReviewEvent) (e : ReviewEvent) (rev id : Int) (st st' : ReviewerData),
        lookupState (groupEvents evs) rev id = some st →
        lookupState (groupEvents (evs ++ [e])) rev id = some st' →
        st.LastUpdated ≤ st'.LastUpdated) ∧
    (∀ (evs : List ReviewEvent) (rev id : Int) (st : ReviewerData),
        lookupState (groupEvents evs) rev id = some st →
        st.LastUpdated = ((keyFilter evs rev id).map (·.Date)).foldl max 0) := by
  constructor
  · intro evs e rev id st st' h1 h2
    rw [groupEvents_append, lookupState_processEvent] at h2
    by_cases hm : e.Revision = rev ∧ e.Id = id
    · rw [if_pos hm, h1] at h2
      obtain rfl : applyEvent st e = st' := by injection h2
      rw [applyEvent_LastUpdated]
      split <;> omega
    · rw [if_neg hm, h1] at h2
      obtain rfl : st = st' := by injection h2
      exact le_refl _
  · intro evs rev id st h
    rw [lookupState_groupEvents] at h
    by_cases he : keyFilter evs rev id = []
    · rw [if_pos he] at h
      exact absurd h (by simp)
    · rw [if_neg he] at h
      obtain rfl : (keyFilter evs rev id).foldl applyEvent (initReviewer id) = st := by
        injection h
      rw [foldl_applyEvent_LastUpdated]
      rfl

/-- C4 witness: instantiating both conjuncts on the concrete fold
`[{t:3, Invited, 1, 1}]` extended by `{t:7, Accepted, 1, 1}`. -/
theorem lastUpdated_monotone_and_eq_foldl_max_witness :
    ((⟨1, 3, 0, 0, 3, true⟩ : ReviewerData).LastUpdated ≤
      (⟨1, 3, 7, 0, 7, true⟩ : ReviewerData).LastUpdated) ∧
    (⟨1, 3, 7, 0, 7, true⟩ : ReviewerData).LastUpdated =
      ((keyFilter [⟨3, .Invited, 1, 1⟩, ⟨7, .Accepted, 1, 1⟩] 1 1).map (·.Date)).foldl max 0 :=
  ⟨lastUpdated_monotone_and_eq_foldl_max.1 [⟨3, .Invited, 1, 1⟩] ⟨7, .Accepted, 1, 1⟩ 1 1
      ⟨1, 3, 0, 0, 3, true⟩ ⟨1, 3, 7, 0, 7, true⟩ (by decide) (by decide),
    lastUpdated_monotone_and_eq_foldl_max.2 [⟨3, .Invited, 1, 1⟩, ⟨7, .Accepted, 1, 1⟩] 1 1
      ⟨1, 3, 7, 0, 7, true⟩ (by decide)⟩

/-! ### Claim C6 -/

/-- C6: the revision groups of the output are strictly ascending by
revision number — in particular no revision number repeats. -/
theorem revisions_strictly_ascending (evs : List ReviewEvent) :
    (formatRevisions (groupEvents evs)).Pairwise (fun g h => g.Id < h.Id) := by
  have hWF := groupEvents_WF evs
  have hpair := sortRevisionEntries_pairwise (jsEntries (groupEvents evs))
  have hp1 : List.Perm (sortRevisionEntries (jsEntries (groupEvents evs))) (groupEvents evs) :=
    (sortRevisionEntries_perm _).trans (jsEntries_perm _)
  have hnd : ((sortRevisionEntries (jsEntries (groupEvents evs))).map Prod.fst).Nodup :=
    ((hp1.map Prod.fst).nodup_iff).mpr hWF.1
  have hlt := pairwise_lt_of_le_of_nodup_fst hpair hnd
  unfold formatRevisions
  exact List.Pairwise.map _ (fun p q h => h) hlt

/-! ### Claim C7 -/

theorem jsSet_append_of_get_none {m : List (Int × α)} {k : Int}
    (h : jsGet m k = none) (v : α) : jsSet m k v = m ++ [(k, v)] := by
  induction m with
  | nil => simp [jsSet]
  | cons p rest ih =>
    by_cases hp : p.1 = k
    · simp [jsGet, hp] at h
    · simp only [jsGet, if_neg hp] at h
      simp [jsSet, hp, ih h]

/-- Total number of reviewer states stored in the nested map. -/
def mapCount (m : RevisionMap) : Nat := (m.map (fun q => q.2.length)).sum

theorem mapCount_jsSet (m : RevisionMap) (k : Int) (v w : ReviewerMap)
    (h : jsGet m k = some v) :
    mapCount (jsSet m k w) + v.length = mapCount m + w.length := by
  induction m with
  | nil => simp [jsGet] at h
  | cons p rest ih =>
    by_cases hp : p.1 = k
    · simp only [jsGet, if_pos hp] at h
      obtain rfl : p.2 = v := by injection h
      simp only [jsSet, if_pos hp, mapCount, List.map_cons, List.sum_cons]
      omega
    · simp only [jsGet, if_neg hp] at h
      simp only [jsSet, if_neg hp, mapCount, List.map_cons, List.sum_cons] at ih ⊢
      have := ih h
      omega

theorem mapCount_processEvent (m : RevisionMap) (e : ReviewEvent) :
    mapCount (processEvent m e) =
      if (lookupState m e.Revision e.Id).isSome then mapCount m else mapCount m + 1 := by
  unfold processEvent lookupState
  cases hg : jsGet m e.Revision with
  | none =>
    rw [jsSet_append_of_get_none hg]
    simp [mapCount, jsGet, jsSet]
  | some rm =>
    simp only [hg, Option.getD_some, Option.some_bind]
    have hs := mapCount_jsSet m e.Revision rm
      (jsSet rm e.Id (applyEvent ((jsGet rm e.Id).getD (initReviewer e.Id)) e)) hg
    have hlen := jsSet_length rm e.Id (applyEvent ((jsGet rm e.Id).getD (initReviewer e.Id)) e)
    by_cases hi : (jsGet rm e.Id).isSome = true
    · simp only [hi, if_true] at hlen ⊢
      omega
    · have hb : (jsGet rm e.Id).isSome = false := by simpa using hi
      simp [hb] at hlen ⊢
      omega

theorem lookupState_isSome_iff (evs : List ReviewEvent) (rev id : Int) :
    (lookupState (groupEvents evs) rev id).isSome = true ↔
      (rev, id) ∈ evs.map (fun e => (e.Revision, e.Id)) := by
  rw [lookupState_groupEvents]
  by_cases hf : keyFilter evs rev id = []
  · rw [if_pos hf]
    simp only [Option.isSome_none, Bool.false_eq_true, false_iff]
    intro hmem
    obtain ⟨e, he, hpair⟩ := List.mem_map.mp hmem
    have hin : e ∈ keyFilter evs rev id := by
      rw [keyFilter, List.mem_filter]
      refine ⟨he, ?_⟩
      have h1 : e.Revision = rev := congrArg Prod.fst hpair
      have h2 : e.Id = id := congrArg Prod.snd hpair
      simp [h1, h2]
    rw [hf] at hin
    simp at hin
  · rw [if_neg hf]
    simp only [Option.isSome_some, true_iff]
    obtain ⟨e, he⟩ := List.exists_mem_of_ne_nil _ hf
    rw [keyFilter] at he
    have hm := List.mem_filter.mp he
    refine List.mem_map.mpr ⟨e, hm.1, ?_⟩
    have hp := hm.2
    simp only [Bool.and_eq_true, beq_iff_eq] at hp
    simp [hp.1, hp.2]

theorem mapCount_groupEvents (evs : List ReviewEvent) :
    mapCount (groupEvents evs) = (evs.map (fun e => (e.Revision, e.Id))).toFinset.card := by
  induction evs using List.reverseRecOn with
  | nil => simp [groupEvents, mapCount]
  | append_singleton evs e ih =>
    rw [groupEvents_append, mapCount_processEvent, ih]
    have hset : ((evs ++ [e]).map (fun e' => (e'.Revision, e'.Id))).toFinset =
        insert (e.Revision, e.Id) ((evs.map (fun e' => (e'.Revision, e'.Id))).toFinset) := by
      rw [List.map_append, List.toFinset_append]
      ext x
      simp [or_comm]
    rw [hset]
    by_cases hmem : (e.Revision, e.Id) ∈ evs.map (fun e' => (e'.Revision, e'.Id))
    · rw [if_pos ((lookupState_isSome_iff evs e.Revision e.Id).mpr hmem)]
      rw [Finset.insert_eq_self.mpr (List.mem_toFinset.mpr hmem)]
    · rw [if_neg (by
        intro hs
        exact hmem ((lookupState_isSome_iff evs e.Revision e.Id).mp hs))]
      rw [Finset.card_insert_of_not_mem (fun hc => hmem (List.mem_toFinset.mp hc))]

/-- C7: the total number of reviewer states in the output equals the
number of distinct `(revisionNumber, reviewerId)` pairs occurring in the
input; events sharing a key fold into one state and never duplicate it. -/
theorem reviewerStates_count_eq_distinct_pairs (evs : List ReviewEvent) :
    ((formatRevisions (groupEvents evs)).map (fun g => g.Reviewers.length)).sum =
      (evs.map (fun e => (e.Revision, e.Id))).toFinset.card := by
  have hstep : (sortRevisionEntries (jsEntries (groupEvents evs))).map
      (fun p => (sortReviewers ((jsEntries p.2).map (·.2))).length) =
      (sortRevisionEntries (jsEntries (groupEvents evs))).map (fun p => p.2.length) :=
    List.map_congr_left (fun p _ => by
      rw [(sortReviewers_perm _).length_eq, List.length_map, (jsEntries_perm _).length_eq])
  calc ((formatRevisions (groupEvents evs)).map (fun g => g.Reviewers.length)).sum
      = ((sortRevisionEntries (jsEntries (groupEvents evs))).map
          (fun p => (sortReviewers ((jsEntries p.2).map (·.2))).length)).sum := by
        unfold formatRevisions
        rw [List.map_map]
        rfl
    _ = ((sortRevisionEntries (jsEntries (groupEvents evs))).map (fun p => p.2.length)).sum := by
        rw [hstep]
    _ = ((groupEvents evs).map (fun p => p.2.length)).sum :=
        (((sortRevisionEntries_perm _).trans (jsEntries_perm _)).map (fun q => q.2.length)).sum_eq
    _ = mapCount (groupEvents evs) := rfl
    _ = (evs.map (fun e => (e.Revision, e.Id))).toFinset.card := mapCount_groupEvents evs

/-! ### Claim C9 -/

/-- C9: every manuscript metadata field of the output equals the
corresponding input field unchanged, and an empty event list yields zero
revision groups (with the metadata still passing through). -/
theorem metadata_passthrough :
    (∀ (d : ReviewData) (f : FormattedReviewData), formatReviewData (some d) = some f →
      f.CorrespondingAuthor = d.CorrespondingAuthor ∧
      f.JournalAcronym = d.JournalAcronym ∧
      f.JournalName = d.JournalName ∧
      f.LastUpdated = d.LastUpdated ∧
      f.ManuscriptTitle = d.ManuscriptTitle ∧
      f.SubmissionDate = d.SubmissionDate) ∧
    (∀ d : ReviewData, d.ReviewEvents = [] →
      (formatReviewData (some d)).map (·.Revisions) = some []) := by
  constructor
  · intro d f h
    have hx := Option.some.inj h
    subst hx
    exact ⟨rfl, rfl, rfl, rfl, rfl, rfl⟩
  · intro d he
    show some (formatRevisions (groupEvents d.ReviewEvents)) = some []
    rw [he]
    rfl

/-- Concrete input with empty event list, for the C9 witness. -/
def passthroughInput : ReviewData :=
  ⟨"u0", "C", 1, "F", "JA", "JN", 4, 0, "T", "P", [], 0, 5⟩

/-- Concrete aggregated output of `passthroughInput`, for the C9 witness. -/
def passthroughOutput : FormattedReviewData :=
  ⟨"C", "JA", "JN", 4, "T", 5, []⟩

/-- C9 witness: both conjuncts instantiated on a concrete empty-event
input. -/
theorem metadata_passthrough_witness :
    (passthroughOutput.CorrespondingAuthor = passthroughInput.CorrespondingAuthor ∧
      passthroughOutput.JournalAcronym = passthroughInput.JournalAcronym ∧
      passthroughOutput.JournalName = passthroughInput.JournalName ∧
      passthroughOutput.LastUpdated = passthroughInput.LastUpdated ∧
      passthroughOutput.ManuscriptTitle = passthroughInput.ManuscriptTitle ∧
      passthroughOutput.SubmissionDate = passthroughInput.SubmissionDate) ∧
    (formatReviewData (some passthroughInput)).map (·.Revisions) = some [] :=
  ⟨metadata_passthrough.1 passthroughInput passthroughOutput rfl,
    metadata_passthrough.2 passthroughInput rfl⟩

/-! ### Claim C10 -/

theorem getStatus_ne_unknown {r : ReviewerData}
    (h : r.InvitedDate ≠ 0 ∨ r.AcceptedDate ≠ 0 ∨ r.CompletedDate ≠ 0) :
    getStatus r ≠ "Unknown" := by
  unfold getStatus
  split
  · decide
  · split
    · decide
    · split
      · decide
      · rename_i h1 h2 h3
        rcases h with h | h | h
        · exact absurd h (by simpa using h3)
        · exact absurd h (by simpa using h2)
        · exact absurd h (by simpa using h1)

/-- C10: if every event timestamp is strictly positive, every reviewer
state in the output has at least one lifecycle field set (nonzero), so no
reviewer in the output ever reports the status Unknown. -/
theorem status_never_unknown (evs : List ReviewEvent)
    (hpos : ∀ e ∈ evs, 0 < e.Date) :
    ∀ g ∈ formatRevisions (groupEvents evs), ∀ rv ∈ g.Reviewers,
      (rv.InvitedDate ≠ 0 ∨ rv.AcceptedDate ≠ 0 ∨ rv.CompletedDate ≠ 0) ∧
      getStatus rv ≠ "Unknown" := by
  intro g hg rv hrv
  unfold formatRevisions at hg
  obtain ⟨p, hp, rfl⟩ := List.mem_map.mp hg
  have hrv1 : rv ∈ (jsEntries p.2).map (·.2) := (sortReviewers_perm _).mem_iff.mp hrv
  obtain ⟨q, hq1, rfl⟩ := List.mem_map.mp hrv1
  have hq : q ∈ p.2 := (jsEntries_perm _).mem_iff.mp hq1
  have hpmem : p ∈ groupEvents evs :=
    ((sortRevisionEntries_perm _).trans (jsEntries_perm _)).mem_iff.mp hp
  have hWF := groupEvents_WF evs
  have hget1 : jsGet (groupEvents evs) p.1 = some p.2 := jsGet_eq_some_of_mem hWF.1 hpmem
  have hget2 : jsGet p.2 q.1 = some q.2 :=
    jsGet_eq_some_of_mem (hWF.2 p hpmem).1.1 hq
  have hlk : lookupState (groupEvents evs) p.1 q.1 = some q.2 := by
    unfold lookupState
    rw [hget1]
    simpa using hget2
  rw [lookupState_groupEvents] at hlk
  by_cases hf : keyFilter evs p.1 q.1 = []
  · rw [if_pos hf] at hlk
    exact absurd hlk (by simp)
  · rw [if_neg hf] at hlk
    have hst : (keyFilter evs p.1 q.1).foldl applyEvent (initReviewer q.1) = q.2 := by
      injection hlk
    rcases List.eq_nil_or_concat (keyFilter evs p.1 q.1) with h | ⟨es', e, heq⟩
    · exact absurd h hf
    · rw [heq, List.concat_eq_append, List.foldl_append, List.foldl_cons, List.foldl_nil] at hst
      have hemem : e ∈ evs := by
        have h1 : e ∈ keyFilter evs p.1 q.1 := by
          rw [heq, List.concat_eq_append]
          exact List.mem_append_right _ (by simp)
        rw [keyFilter] at h1
        exact (List.mem_filter.mp h1).1
      have hepos : 0 < e.Date := hpos e hemem
      have hfield := fieldOf_applyEvent_self (es'.foldl applyEvent (initReviewer q.1)) e
      rw [hst] at hfield
      have hdisj : q.2.InvitedDate ≠ 0 ∨ q.2.AcceptedDate ≠ 0 ∨ q.2.CompletedDate ≠ 0 := by
        cases hk : e.Event
        · rw [hk] at hfield
          exact Or.inl (by rw [show q.2.InvitedDate = fieldOf .Invited q.2 from rfl, hfield]; omega)
        · rw [hk] at hfield
          exact Or.inr (Or.inl
            (by rw [show q.2.AcceptedDate = fieldOf .Accepted q.2 from rfl, hfield]; omega))
        · rw [hk] at hfield
          exact Or.inr (Or.inr
            (by rw [show q.2.CompletedDate = fieldOf .Completed q.2 from rfl, hfield]; omega))
      exact ⟨hdisj, getStatus_ne_unknown hdisj⟩

/-- C10 witness: instantiated on the single positive-timestamp event
`{t:3, Invited, 1, 1}`. -/
theorem status_never_unknown_witness :
    ((⟨1, 3, 0, 0, 3, true⟩ : ReviewerData).InvitedDate ≠ 0 ∨
      (⟨1, 3, 0, 0, 3, true⟩ : ReviewerData).AcceptedDate ≠ 0 ∨
      (⟨1, 3, 0, 0, 3, true⟩ : ReviewerData).CompletedDate ≠ 0) ∧
    getStatus ⟨1, 3, 0, 0, 3, true⟩ ≠ "Unknown" :=
  status_never_unknown [⟨3, .Invited, 1, 1⟩] (by decide)
    ⟨1, true, [⟨1, 3, 0, 0, 3, true⟩]⟩ (by decide) ⟨1, 3, 0, 0, 3, true⟩ (by decide)

/-! ### Claim C2 -/

/-- Input whose two events tie on timestamp but whose keys first occur in
descending id order, used for the C2 counterexample and witness. -/
def tieBreakInput : ReviewData :=
  ⟨"u1", "A", 2, "A", "J", "J", 9, 1, "T", "P",
    [⟨5, .Invited, 1, 2⟩, ⟨5, .Invited, 1, 1⟩], 0, 8⟩

/-- C2 counterexample: the two reviewers tie on `lastUpdatedAt = 5` and
their keys first occur in input order `[2, 1]`, yet the output lists them
as `[1, 2]` — ascending reviewer id, not stable input order. -/
theorem tie_ordered_by_id_not_input_order :
    (formatReviewData (some tieBreakInput)).map
        (fun f => f.Revisions.map (fun g => g.Reviewers.map (fun rv => (rv.Id, rv.LastUpdated)))) =
      some [[(1, 5), (2, 5)]] ∧
    tieBreakInput.ReviewEvents.map (·.Id) = [2, 1] := by
  decide

/-- Stability of the reviewer sort: on a bucket already in ascending-id
order with distinct ids, reviewers tying on `LastUpdated` come out in
ascending-id order. -/
theorem sortReviewers_pairwise_tie {l : List ReviewerData}
    (hnd : (l.map (fun r => r.Id)).Nodup)
    (hp : l.Pairwise (fun a b => a.Id ≤ b.Id)) :
    (sortReviewers l).Pairwise
      (fun a b => a.LastUpdated ≤ b.LastUpdated ∧
        (b.LastUpdated ≤ a.LastUpdated → a.Id ≤ b.Id)) := by
  rw [List.pairwise_iff_forall_sublist]
  intro a b hab
  have hsorted := sortReviewers_pairwise l
  constructor
  · exact List.rel_of_pairwise_cons (List.Pairwise.sublist hab hsorted) (by simp)
  · intro htie
    by_cases heq : a = b
    · subst heq
      exact le_refl _
    · have ha : a ∈ l := (sortReviewers_perm l).mem_iff.mp (hab.subset (by simp))
      have hb : b ∈ l := (sortReviewers_perm l).mem_iff.mp (hab.subset (by simp))
      rcases pair_sublist_of_mem ha hb heq with h | h
      · exact List.rel_of_pairwise_cons (List.Pairwise.sublist h hp) (by simp)
      · have hba : [b, a] <+ sortReviewers l :=
          List.pair_sublist_insertionSort htie h
        have hnl : l.Nodup := List.Nodup.of_map _ hnd
        have hout : (sortReviewers l).Nodup := ((sortReviewers_perm l).nodup_iff).mpr hnl
        exact absurd (pair_sublist_antisymm hout hab hba) heq

/-- C2 amended: within each revision group of the output, reviewers are
ordered by ascending `lastUpdatedAt`; two reviewers with equal
`lastUpdatedAt` appear in ascending reviewer-id order (the JS object
enumeration order of the bucket) — not in input first-occurrence order —
provided all reviewer ids are in the JS array-index range. -/
theorem reviewers_sorted_lastUpdated_ties_ascending_id (d : ReviewData)
    (hIdx : ∀ e ∈ d.ReviewEvents, isArrayIndex e.Id = true) :
    ∀ f, formatReviewData (some d) = some f →
    ∀ g ∈ f.Revisions, g.Reviewers.Pairwise
      (fun a b => a.LastUpdated ≤ b.LastUpdated ∧
        (b.LastUpdated ≤ a.LastUpdated → a.Id ≤ b.Id)) := by
  intro f hf g hg
  have hx := Option.some.inj hf
  subst hx
  simp only [formatRevisions] at hg
  obtain ⟨p, hp, rfl⟩ := List.mem_map.mp hg
  have hpmem : p ∈ groupEvents d.ReviewEvents :=
    ((sortRevisionEntries_perm _).trans (jsEntries_perm _)).mem_iff.mp hp
  have hWF := groupEvents_WF d.ReviewEvents
  have hinner := (hWF.2 p hpmem).1
  have hIdEq : ∀ q ∈ jsEntries p.2, q.2.Id = q.1 := fun q hq =>
    hinner.2 q ((jsEntries_perm _).mem_iff.mp hq)
  have hIdxKey : ∀ q ∈ jsEntries p.2, isArrayIndex q.1 = true := by
    intro q hq
    obtain ⟨e, he, _, hid⟩ :=
      inner_mem_groupEvents d.ReviewEvents p hpmem q ((jsEntries_perm _).mem_iff.mp hq)
    exact hid ▸ hIdx e he
  have hpair : ((jsEntries p.2).map (·.2)).Pairwise (fun a b => a.Id ≤ b.Id) := by
    rw [List.pairwise_map]
    refine List.Pairwise.imp_of_mem ?_ (jsEntries_pairwise p.2)
    intro x y hx hy hxy
    rw [hIdEq x hx, hIdEq y hy]
    exact (jsKeyLE_of_indices (hIdxKey x hx) (hIdxKey y hy)).mp hxy
  have hnd : (((jsEntries p.2).map (·.2)).map (fun r => r.Id)).Nodup := by
    rw [List.map_map]
    have hext : (jsEntries p.2).map (fun q => q.2.Id) = (jsEntries p.2).map Prod.fst :=
      List.map_congr_left (fun q hq => hIdEq q hq)
    show ((jsEntries p.2).map (fun q => q.2.Id)).Nodup
    rw [hext]
    exact (((jsEntries_perm p.2).map Prod.fst).nodup_iff).mpr hinner.1
  exact sortReviewers_pairwise_tie hnd hpair

/-- C2 witness: the amended ordering property instantiated on
`tieBreakInput`, whose aggregated bucket is `[id 1, id 2]` with equal
`lastUpdatedAt`. -/
theorem reviewers_sorted_lastUpdated_ties_ascending_id_witness :
    ([⟨1, 5, 0, 0, 5, true⟩, ⟨2, 5, 0, 0, 5, true⟩] : List ReviewerData).Pairwise
      (fun a b => a.LastUpdated ≤ b.LastUpdated ∧
        (b.LastUpdated ≤ a.LastUpdated → a.Id ≤ b.Id)) :=
  reviewers_sorted_lastUpdated_ties_ascending_id tieBreakInput (by decide)
    { CorrespondingAuthor := "A", JournalAcronym := "J", JournalName := "J",
      LastUpdated := 9, ManuscriptTitle := "T", SubmissionDate := 8,
      Revisions := [⟨1, true, [⟨1, 5, 0, 0, 5, true⟩, ⟨2, 5, 0, 0, 5, true⟩]⟩] }
    (by decide)
    ⟨1, true, [⟨1, 5, 0, 0, 5, true⟩, ⟨2, 5, 0, 0, 5, true⟩]⟩
    (by decide)

/-! ### Claim C8 -/

/-- Two event lists that agree on the sub-sequence of events of every
`(revisionNumber, reviewerId)` key: one is a reordering of the other that
only moves events across distinct keys. -/
def KeyEquiv (l1 l2 : List ReviewEvent) : Prop :=
  ∀ rev id : Int, keyFilter l1 rev id = keyFilter l2 rev id

theorem keyEquiv_swap_two {e1 e2 : ReviewEvent}
    (h : e1.Revision ≠ e2.Revision ∨ e1.Id ≠ e2.Id) :
    KeyEquiv [e1, e2] [e2, e1] := by
  intro rev id
  unfold keyFilter
  simp only [List.filter_cons, List.filter_nil]
  by_cases hc1 : (e1.Revision == rev && e1.Id == id) = true
  · by_cases hc2 : (e2.Revision == rev && e2.Id == id) = true
    · simp only [Bool.and_eq_true, beq_iff_eq] at hc1 hc2
      rcases h with h | h
      · exact absurd (hc1.1.trans hc2.1.symm) h
      · exact absurd (hc1.2.trans hc2.2.symm) h
    · simp [hc1, hc2]
  · by_cases hc2 : (e2.Revision == rev && e2.Id == id) = true
    · simp [hc1, hc2]
    · simp [hc1, hc2]

theorem mem_of_keyEquiv {l1 l2 : List ReviewEvent} (h : KeyEquiv l1 l2)
    (e : ReviewEvent) : e ∈ l1 ↔ e ∈ l2 := by
  constructor
  · intro he
    have h1 : e ∈ keyFilter l1 e.Revision e.Id := by
      rw [keyFilter]
      exact List.mem_filter.mpr ⟨he, by simp⟩
    rw [h e.Revision e.Id, keyFilter] at h1
    exact (List.mem_filter.mp h1).1
  · intro he
    have h1 : e ∈ keyFilter l2 e.Revision e.Id := by
      rw [keyFilter]
      exact List.mem_filter.mpr ⟨he, by simp⟩
    rw [← h e.Revision e.Id, keyFilter] at h1
    exact (List.mem_filter.mp h1).1

/-- Input with the two tied events on distinct non-array-index (negative)
reviewer ids, in the order `[-1, -2]`. -/
def negIdInputA : ReviewData :=
  ⟨"u2", "B", 3, "B", "K", "K", 9, 1, "S", "Q",
    [⟨5, .Invited, 1, -1⟩, ⟨5, .Invited, 1, -2⟩], 0, 7⟩

/-- Same input with the two events swapped (a reorder across distinct
keys). -/
def negIdInputB : ReviewData :=
  ⟨"u2", "B", 3, "B", "K", "K", 9, 1, "S", "Q",
    [⟨5, .Invited, 1, -2⟩, ⟨5, .Invited, 1, -1⟩], 0, 7⟩

/-- C8 counterexample: swapping two events of distinct keys (negative
reviewer ids, equal timestamps) is a key-preserving reorder, yet the two
aggregated results differ — the reviewers come out in the two different
insertion orders. -/
theorem reorder_disjoint_keys_changes_result :
    KeyEquiv negIdInputA.ReviewEvents negIdInputB.ReviewEvents ∧
    formatReviewData (some negIdInputA) ≠ formatReviewData (some negIdInputB) := by
  constructor
  · exact keyEquiv_swap_two (Or.inr (by decide))
  · decide

theorem jsEntries_eq_of_assoc_eq {rm1 rm2 : ReviewerMap}
    (h : ∀ i, jsGet rm1 i = jsGet rm2 i)
    (hnd1 : (rm1.map Prod.fst).Nodup) (hnd2 : (rm2.map Prod.fst).Nodup)
    (hidx1 : ∀ q ∈ rm1, isArrayIndex q.1 = true)
    (hidx2 : ∀ q ∈ rm2, isArrayIndex q.1 = true) :
    jsEntries rm1 = jsEntries rm2 := by
  haveI : IsAntisymm (Int × ReviewerData) (fun p q => p.1 < q.1) :=
    ⟨fun p q h1 h2 => absurd (lt_trans h1 h2) (lt_irrefl _)⟩
  have hmem : ∀ q : Int × ReviewerData, q ∈ rm1 ↔ q ∈ rm2 := by
    intro q
    constructor
    · intro hq
      exact jsGet_mem (by rw [← h q.1]; exact jsGet_eq_some_of_mem hnd1 hq)
    · intro hq
      exact jsGet_mem (by rw [h q.1]; exact jsGet_eq_some_of_mem hnd2 hq)
  have hn1 : rm1.Nodup := List.Nodup.of_map _ hnd1
  have hn2 : rm2.Nodup := List.Nodup.of_map _ hnd2
  have hperm : List.Perm (jsEntries rm1) (jsEntries rm2) :=
    (jsEntries_perm rm1).trans
      (((List.perm_ext_iff_of_nodup hn1 hn2).mpr hmem).trans (jsEntries_perm rm2).symm)
  have hsorted : ∀ (rm : ReviewerMap), (rm.map Prod.fst).Nodup →
      (∀ q ∈ rm, isArrayIndex q.1 = true) →
      (jsEntries rm).Pairwise (fun p q => p.1 < q.1) := by
    intro rm hnd hidx
    have hle : (jsEntries rm).Pairwise (fun p q => p.1 ≤ q.1) := by
      refine List.Pairwise.imp_of_mem ?_ (jsEntries_pairwise rm)
      intro x y hx hy hxy
      exact (jsKeyLE_of_indices (hidx x ((jsEntries_perm rm).mem_iff.mp hx))
        (hidx y ((jsEntries_perm rm).mem_iff.mp hy))).mp hxy
    exact pairwise_lt_of_le_of_nodup_fst hle
      (((jsEntries_perm rm).map Prod.fst).nodup_iff.mpr hnd)
  exact List.eq_of_perm_of_sorted hperm (hsorted rm1 hnd1 hidx1) (hsorted rm2 hnd2 hidx2)

theorem formatRevisions_eq_keys_map (m : RevisionMap) (hnd : (m.map Prod.fst).Nodup) :
    formatRevisions m = ((sortRevisionEntries (jsEntries m)).map Prod.fst).map
      (fun k => { Id := k, Collapsed := true,
                  Reviewers := sortReviewers ((jsEntries ((jsGet m k).getD [])).map (·.2)) }) := by
  unfold formatRevisions
  rw [List.map_map]
  refine List.map_congr_left ?_
  intro p hp
  have hpm : p ∈ m := ((sortRevisionEntries_perm _).trans (jsEntries_perm _)).mem_iff.mp hp
  have hg : jsGet m p.1 = some p.2 := jsGet_eq_some_of_mem hnd hpm
  show ({ Id := p.1, Collapsed := true,
          Reviewers := sortReviewers ((jsEntries p.2).map (·.2)) } : RevisionData) =
    { Id := p.1, Collapsed := true,
      Reviewers := sortReviewers ((jsEntries ((jsGet m p.1).getD [])).map (·.2)) }
  rw [hg, Option.getD_some]

/-- C8 amended: a permutation that only reorders events of distinct
`(revisionNumber, reviewerId)` keys (preserving relative order within
every key) produces an identical result, provided every reviewer id lies
in the JS array-index range; with ids outside that range (e.g. negative),
the insertion order of tied reviewers can leak into the output. -/
theorem reorder_disjoint_keys_same_result (d : ReviewData) (l2 : List ReviewEvent)
    (hk : KeyEquiv d.ReviewEvents l2)
    (hIdx : ∀ e ∈ d.ReviewEvents, isArrayIndex e.Id = true) :
    formatReviewData (some d) = formatReviewData (some { d with ReviewEvents := l2 }) := by
  have hIdx2 : ∀ e ∈ l2, isArrayIndex e.Id = true := fun e he =>
    hIdx e ((mem_of_keyEquiv hk e).mpr he)
  have hlk : ∀ rev id, lookupState (groupEvents d.ReviewEvents) rev id =
      lookupState (groupEvents l2) rev id := by
    intro rev id
    rw [lookupState_groupEvents, lookupState_groupEvents, hk rev id]
  have hWF1 := groupEvents_WF d.ReviewEvents
  have hWF2 := groupEvents_WF l2
  have hkeys : (sortRevisionEntries (jsEntries (groupEvents d.ReviewEvents))).map Prod.fst =
      (sortRevisionEntries (jsEntries (groupEvents l2))).map Prod.fst := by
    have hmem : ∀ r, r ∈ (sortRevisionEntries (jsEntries (groupEvents d.ReviewEvents))).map Prod.fst ↔
        r ∈ (sortRevisionEntries (jsEntries (groupEvents l2))).map Prod.fst := by
      intro r
      rw [(((sortRevisionEntries_perm _).trans (jsEntries_perm _)).map Prod.fst).mem_iff,
          (((sortRevisionEntries_perm _).trans (jsEntries_perm _)).map Prod.fst).mem_iff,
          keys_groupEvents, keys_groupEvents]
      constructor
      · rintro ⟨e, he, hr⟩
        exact ⟨e, (mem_of_keyEquiv hk e).mp he, hr⟩
      · rintro ⟨e, he, hr⟩
        exact ⟨e, (mem_of_keyEquiv hk e).mpr he, hr⟩
    have hnd1 : ((sortRevisionEntries (jsEntries (groupEvents d.ReviewEvents))).map Prod.fst).Nodup :=
      (((sortRevisionEntries_perm _).trans (jsEntries_perm _)).map Prod.fst).nodup_iff.mpr hWF1.1
    have hnd2 : ((sortRevisionEntries (jsEntries (groupEvents l2))).map Prod.fst).Nodup :=
      (((sortRevisionEntries_perm _).trans (jsEntries_perm _)).map Prod.fst).nodup_iff.mpr hWF2.1
    exact List.eq_of_perm_of_sorted ((List.perm_ext_iff_of_nodup hnd1 hnd2).mpr hmem)
      (List.pairwise_map.mpr (sortRevisionEntries_pairwise _))
      (List.pairwise_map.mpr (sortRevisionEntries_pairwise _))
  have hrev : formatRevisions (groupEvents d.ReviewEvents) = formatRevisions (groupEvents l2) := by
    rw [formatRevisions_eq_keys_map _ hWF1.1, formatRevisions_eq_keys_map _ hWF2.1, hkeys]
    refine List.map_congr_left ?_
    intro k hkmem
    have hk2 : k ∈ (groupEvents l2).map Prod.fst :=
      (((sortRevisionEntries_perm _).trans (jsEntries_perm _)).map Prod.fst).mem_iff.mp hkmem
    have hk1 : k ∈ (groupEvents d.ReviewEvents).map Prod.fst := by
      rw [← hkeys] at hkmem
      exact (((sortRevisionEntries_perm _).trans (jsEntries_perm _)).map Prod.fst).mem_iff.mp hkmem
    obtain ⟨rm1, hg1⟩ : ∃ rm, jsGet (groupEvents d.ReviewEvents) k = some rm := by
      cases hg : jsGet (groupEvents d.ReviewEvents) k with
      | none =>
        exact absurd ((jsGet_isSome_iff _ _).mpr hk1) (by rw [hg]; simp)
      | some rm => exact ⟨rm, rfl⟩
    obtain ⟨rm2, hg2⟩ : ∃ rm, jsGet (groupEvents l2) k = some rm := by
      cases hg : jsGet (groupEvents l2) k with
      | none =>
        exact absurd ((jsGet_isSome_iff _ _).mpr hk2) (by rw [hg]; simp)
      | some rm => exact ⟨rm, rfl⟩
    have hinner : ∀ i, jsGet rm1 i = jsGet rm2 i := by
      intro i
      have := hlk k i
      rw [lookupState, lookupState, hg1, hg2] at this
      simpa using this
    have heq : jsEntries rm1 = jsEntries rm2 := by
      refine jsEntries_eq_of_assoc_eq hinner
        ((hWF1.2 (k, rm1) (jsGet_mem hg1)).1.1)
        ((hWF2.2 (k, rm2) (jsGet_mem hg2)).1.1) ?_ ?_
      · intro q hq
        obtain ⟨e, he, _, hid⟩ :=
          inner_mem_groupEvents d.ReviewEvents (k, rm1) (jsGet_mem hg1) q hq
        exact hid ▸ hIdx e he
      · intro q hq
        obtain ⟨e, he, _, hid⟩ :=
          inner_mem_groupEvents l2 (k, rm2) (jsGet_mem hg2) q hq
        exact hid ▸ hIdx2 e he
    rw [hg1, hg2]
    simp only [Option.getD_some]
    rw [heq]
  unfold formatReviewData
  dsimp only
  rw [hrev]

/-- Input with two events on distinct array-index keys, for the C8
witness. -/
def swapInputA : ReviewData :=
  ⟨"u3", "D", 4, "D", "L", "L", 9, 1, "U", "R",
    [⟨5, .Invited, 1, 1⟩, ⟨6, .Invited, 1, 2⟩], 0, 6⟩

/-- C8 witness: the amended theorem instantiated on a concrete swap of
two events with distinct array-index keys. -/
theorem reorder_disjoint_keys_same_result_witness :
    formatReviewData (some swapInputA) =
      formatReviewData
        (some { swapInputA with ReviewEvents := [⟨6, .Invited, 1, 2⟩, ⟨5, .Invited, 1, 1⟩] }) :=
  reorder_disjoint_keys_same_result swapInputA _
    (keyEquiv_swap_two (Or.inr (by decide))) (by decide)

/-- Validation of the worked scenario of spec §8: three events on
revision 1, reviewer 2 (`lastUpdatedAt = 50`) sorts before reviewer 1
(`lastUpdatedAt = 200`), reviewer 1 ends Invited+Accepted. -/
theorem spec_section8_scenario :
    formatReviewData (some
      { Uuid := "u", CorrespondingAuthor := "a", DocumentId := 1, FirstAuthor := "f",
        JournalAcronym := "JA", JournalName := "J", LastUpdated := 9,
        LatestRevisionNumber := 1, ManuscriptTitle := "t", PubdNumber := "p",
        ReviewEvents := [⟨100, .Invited, 1, 1⟩, ⟨200, .Accepted, 1, 1⟩, ⟨50, .Invited, 1, 2⟩],
        Status := 0, SubmissionDate := 3 }) =
    some
      { CorrespondingAuthor := "a", JournalAcronym := "JA", JournalName := "J",
        LastUpdated := 9, ManuscriptTitle := "t", SubmissionDate := 3,
        Revisions := [⟨1, true, [⟨2, 50, 0, 0, 50, true⟩, ⟨1, 100, 200, 0, 200, true⟩]⟩] } := by
  decide

end ReviewTracker
